/-
Verification of the devrev-backfill resilience/orchestration core.

Shallow embedding of the Python sources:
  * src/processing/batch.py        (BatchProcessor.process_batch)
  * src/core/retry.py              (async_retry)
  * src/core/circuit_breaker.py    (CircuitBreaker)
  * src/core/rate_limiter.py       (RateLimiter.acquire)
  * src/core/cache.py              (Cache / CacheEntry)
  * src/core/validation.py         (DataValidator.validate_issue)
  * src/devrev_client.py           (DevRevClient.update_issue_creator_group,
                                    DevRevClient.get_user_groups)
  * src/processors/issue_processor.py (IssueProcessor counters)

Machine time is modelled as rational numbers, exceptions as `Except`,
random jitter as an explicit input stream.  Functions keep the names of
the Python methods they embed.
-/
import Mathlib

namespace DevRevBackfill

/-! ## Batch processing: src/processing/batch.py -/

/-- Embeds the `BatchResult` dataclass: one outcome per chunk. -/
structure BatchResult (T R E : Type) where
  input_items : List T
  output_items : List R
  success : Bool
  error : Option E
deriving DecidableEq, Repr

/-- Embeds the `Exception(f"Max consecutive failures (...) reached")`
raised by `BatchProcessor.process_batch`; it carries no batch results. -/
inductive BatchError where
  | fatal (maxFailures : Nat)
deriving DecidableEq, Repr

/-- The slicing loop `for i in range(0, len(items), batch_size)`:
consecutive slices `items[i : i + batch_size]`.  (Python raises on a zero
step; `batch_size = 0` is outside every theorem below.) -/
def chunkList (bs : Nat) (l : List α) : List (List α) :=
  if h : bs = 0 ∨ l.isEmpty then [] else l.take bs :: chunkList bs (l.drop bs)
termination_by l.length
decreasing_by
  push_neg at h
  have hl : l.length ≠ 0 := by
    cases l with
    | nil => simp at h
    | cons a t => simp
  simp only [List.length_drop]
  omega

/-- The body of `BatchProcessor.process_batch`, recursing over the chunks
with the running `self.consecutive_failures` counter made explicit.
`fn` is `process_func`; a `.error` from it models a raised exception. -/
def processChunks (maxFail : Nat) (fn : List T → Except E (List R)) :
    Nat → List (List T) → Except BatchError (List (BatchResult T R E))
  | _, [] => .ok []
  | consec, c :: cs =>
    match fn c with
    | .ok out =>
      match processChunks maxFail fn 0 cs with
      | .ok rest => .ok (⟨c, out, true, none⟩ :: rest)
      | .error e => .error e
    | .error e =>
      if maxFail ≤ consec + 1 then .error (.fatal maxFail)
      else
        match processChunks maxFail fn (consec + 1) cs with
        | .ok rest => .ok (⟨c, [], false, some e⟩ :: rest)
        | .error e2 => .error e2

/-- `BatchProcessor.process_batch` on a freshly constructed processor
(`self.consecutive_failures = 0`). -/
def process_batch (batch_size maxFail : Nat) (items : List T)
    (fn : List T → Except E (List R)) :
    Except BatchError (List (BatchResult T R E)) :=
  processChunks maxFail fn 0 (chunkList batch_size items)

/-- The `results` list the Python loop has built so far, together with
whether the run aborts: on abort the loop has appended the failing
chunk's result and then raises, discarding the list. -/
def processTrace (maxFail : Nat) (fn : List T → Except E (List R)) :
    Nat → List (List T) → List (BatchResult T R E) × Bool
  | _, [] => ([], false)
  | consec, c :: cs =>
    match fn c with
    | .ok out =>
      let rest := processTrace maxFail fn 0 cs
      (⟨c, out, true, none⟩ :: rest.1, rest.2)
    | .error e =>
      if maxFail ≤ consec + 1 then ([⟨c, [], false, some e⟩], true)
      else
        let rest := processTrace maxFail fn (consec + 1) cs
        (⟨c, [], false, some e⟩ :: rest.1, rest.2)

/-! ## Retry with backoff: src/core/retry.py -/

/-- `delay * (backoff ** attempt) + jitter`, with
`jitter = random.uniform(0, 0.1) * delay`; `u i` is the i-th uniform
sample from `[0, 0.1]`. -/
def retrySleep (delay backoff : ℚ) (u : Nat → ℚ) (i : Nat) : ℚ :=
  delay * backoff ^ i + u i * delay

/-- The loop `for attempt in range(retries)` of `async_retry`, with
`remaining = retries - i` attempts left and `i` the current attempt
index.  `attempts i` is the outcome of the i-th invocation of the
wrapped coroutine.  Returns the result together with the list of sleep
durations, in order.  `.error none` models the degenerate
`raise last_exception` with `last_exception = None` after a zero-length
loop; `.error (some e)` models re-raising the exception `e`. -/
def asyncRetryGo (eligible : E → Bool) (delay backoff : ℚ)
    (attempts : Nat → Except E A) (u : Nat → ℚ) :
    Nat → Nat → Except (Option E) A × List ℚ
  | 0, _ => (.error none, [])
  | r + 1, i =>
    match attempts i with
    | .ok a => (.ok a, [])
    | .error e =>
      if eligible e then
        if r = 0 then (.error (some e), [])
        else
          let rest := asyncRetryGo eligible delay backoff attempts u r (i + 1)
          (rest.1, retrySleep delay backoff u i :: rest.2)
      else (.error (some e), [])

/-- Embeds `async_retry(retries, delay, backoff, exceptions)` applied to
a wrapped coroutine whose successive outcomes are `attempts`. -/
def async_retry (retries : Nat) (delay backoff : ℚ) (eligible : E → Bool)
    (attempts : Nat → Except E A) (u : Nat → ℚ) :
    Except (Option E) A × List ℚ :=
  asyncRetryGo eligible delay backoff attempts u retries 0

/-! ## Circuit breaker: src/core/circuit_breaker.py -/

/-- Embeds the `CircuitState` enum. -/
inductive CircuitState where
  | closed
  | opened
  | halfOpen
deriving DecidableEq, Repr

/-- The mutable attributes of `CircuitBreaker` (timestamps as ℚ;
`last_failure_time` is never read so it is omitted). -/
structure CircuitBreaker where
  failure_threshold : Nat
  reset_timeout : ℚ
  failures : Nat
  state : CircuitState
  last_state_change : ℚ
deriving DecidableEq, Repr

/-- A freshly constructed `CircuitBreaker(failure_threshold, reset_timeout)`
whose `last_state_change` is the construction time. -/
def CircuitBreaker.init (thresh : Nat) (timeout t0 : ℚ) : CircuitBreaker :=
  ⟨thresh, timeout, 0, .closed, t0⟩

/-- `CircuitBreaker.can_execute`, which mutates the state on the
OPEN → HALF_OPEN transition; `now` is `datetime.now()`. -/
def can_execute (now : ℚ) (cb : CircuitBreaker) : Bool × CircuitBreaker :=
  match cb.state with
  | .closed => (true, cb)
  | .opened =>
    if cb.reset_timeout < now - cb.last_state_change then
      (true, { cb with state := .halfOpen, last_state_change := now })
    else (false, cb)
  | .halfOpen => (true, cb)

/-- `CircuitBreaker.on_success`: resets the failure counter only when
leaving HALF_OPEN. -/
def on_success (now : ℚ) (cb : CircuitBreaker) : CircuitBreaker :=
  if cb.state = .halfOpen then
    { cb with state := .closed, failures := 0, last_state_change := now }
  else cb

/-- `CircuitBreaker.on_failure`: increments the counter and opens at the
threshold. -/
def on_failure (now : ℚ) (cb : CircuitBreaker) : CircuitBreaker :=
  let cb := { cb with failures := cb.failures + 1 }
  if cb.failure_threshold ≤ cb.failures then
    { cb with state := .opened, last_state_change := now }
  else cb

/-- One call through the `__call__` wrapper at time `now`: if
`can_execute` rejects, the wrapped operation is not invoked; otherwise
the call outcome `ok` (`true` = the wrapped function returned,
`false` = it raised) drives `on_success`/`on_failure`. -/
def cbCall (cb : CircuitBreaker) (call : ℚ × Bool) : CircuitBreaker :=
  let r := can_execute call.1 cb
  if r.1 then
    if call.2 then on_success call.1 r.2 else on_failure call.1 r.2
  else r.2

/-- A sequence of wrapped calls, each a (timestamp, outcome) pair. -/
def cbRun (cb : CircuitBreaker) (calls : List (ℚ × Bool)) : CircuitBreaker :=
  calls.foldl cbCall cb

/-! ## Rate limiter: src/core/rate_limiter.py -/

/-- Embeds `RateLimiter.acquire` under the lock, as a function of the
recorded timestamps and the entry time `now`: it prunes timestamps
older than `period`, computes the sleep duration (0 when under quota or
when the computed wait is not positive), and appends the entry
timestamp `now` — the variable captured before the sleep. -/
def acquire (calls : Nat) (period : ℚ) (times : List ℚ) (now : ℚ) :
    ℚ × List ℚ :=
  let pruned := times.filter (fun t => now - period < t)
  let sleep :=
    if calls ≤ pruned.length then
      max 0 (((pruned.min?).getD 0) + period - now)
    else 0
  (sleep, pruned ++ [now])

/-! ## Cache: src/core/cache.py -/

/-- The cache store plus the default TTL passed to `Cache(ttl=...)`.
`store k = some (v, expiry)` embeds `CacheEntry(value=v, expiry)`. -/
structure CacheState (V : Type) where
  store : String → Option (V × ℚ)
  ttl : ℚ

/-- A freshly constructed `Cache(ttl)`. -/
def Cache.empty (ttl : ℚ) : CacheState V := ⟨fun _ => none, ttl⟩

/-- `CacheEntry.is_expired`: `datetime.now() > self.expiry` (strict). -/
def is_expired (now expiry : ℚ) : Bool := expiry < now

/-- The TTL actually applied by `Cache.set`: `ttl or self.ttl` — Python
falsiness, so both `None` *and* `0` fall back to the cache default. -/
def effectiveTtl (c : CacheState V) : Option ℚ → ℚ
  | none => c.ttl
  | some t => if t = 0 then c.ttl else t

/-- `Cache.set(key, value, ttl)`: stores a `CacheEntry` whose expiry is
`now + effectiveTtl`. -/
def cacheSet (now : ℚ) (key : String) (v : V) (ttl? : Option ℚ)
    (c : CacheState V) : CacheState V :=
  { c with store := fun k =>
      if k = key then some (v, now + effectiveTtl c ttl?) else c.store k }

/-- `Cache.get(key)`: returns the live value, or evicts an expired
entry and reports absent. -/
def cacheGet (now : ℚ) (key : String) (c : CacheState V) :
    Option V × CacheState V :=
  match c.store key with
  | some (v, expiry) =>
    if is_expired now expiry then
      (none, { c with store := fun k => if k = key then none else c.store k })
    else (some v, c)
  | none => (none, c)

/-! ## DevRev client: src/devrev_client.py -/

/-- The `DevRevAPIError` hierarchy raised by the client. -/
inductive DevRevError where
  | rateLimit (msg : String)
  | authentication (msg : String)
  | api (msg : String)
deriving DecidableEq, Repr

/-- The observable outcome of the HTTP POST inside
`update_issue_creator_group`: a status code, or a raised exception. -/
inductive HttpResult where
  | status (code : Nat)
  | exc
deriving DecidableEq, Repr

/-- Embeds `DevRevClient.update_issue_creator_group(issue_id, group_id,
dry_run)` as a function of the response: `dry_run` short-circuits to
success; status 200 returns `True`; 404, 403 and every other status
return `False`; a raised exception is caught and returns `False`.  The
`Except DevRevError` result type records which executions raise: none
of them do. -/
def update_issue_creator_group (dry_run : Bool) (resp : HttpResult) :
    Except DevRevError Bool :=
  if dry_run then .ok true
  else
    match resp with
    | .status code => if code = 200 then .ok true else .ok false
    | .exc => .ok false

/-- Embeds the `UserGroup` model built by `get_user_groups`. -/
structure UserGroup where
  user_id : String
  group_id : Option String
deriving DecidableEq, Repr

/-- One element of `data.get('users', [])` in the `users.list` response. -/
structure ApiUser where
  id : String
  group_refs : List String
deriving DecidableEq, Repr

/-- The comprehension building `UserGroup(user_id=user['id'],
group_id=user['group_refs'][0] if user.get('group_refs') else None)`. -/
def userGroupsOf (users : List ApiUser) : List UserGroup :=
  users.map (fun u => ⟨u.id, u.group_refs.head?⟩)

/-- `cache_key = f"user_groups_{','.join(sorted(user_ids))}"`. -/
def cacheKey (user_ids : List String) : String :=
  "user_groups_" ++ String.intercalate "," (user_ids.mergeSort (fun a b => decide (a ≤ b)))

/-- Embeds `DevRevClient.get_user_groups(user_ids)` as a function of the
network response `apiUsers` for this call.  Returns the produced list,
the number of network calls made (0 on a cache hit, 1 otherwise), and
the new cache state.  `if cached:` is Python truthiness: an empty
cached list is treated as a miss. -/
def get_user_groups (now : ℚ) (user_ids : List String)
    (apiUsers : List ApiUser) (c : CacheState (List UserGroup)) :
    List UserGroup × Nat × CacheState (List UserGroup) :=
  let key := cacheKey user_ids
  let r := cacheGet now key c
  match r.1 with
  | some v =>
    if v ≠ [] then (v, 0, r.2)
    else
      let groups := userGroupsOf apiUsers
      (groups, 1, cacheSet now key groups none r.2)
  | none =>
    let groups := userGroupsOf apiUsers
    (groups, 1, cacheSet now key groups none r.2)

/-! ## Validator: src/core/validation.py -/

/-- Embeds the `Issue` model. -/
structure Issue where
  issue_id : String
  creator_user_id : String
  assigned_group : String
  creator_group : Option String
deriving DecidableEq, Repr

/-- Embeds `ValidationResult`. -/
structure ValidationResult where
  is_valid : Bool
  errors : List String
  warnings : List String
deriving DecidableEq, Repr

/-- Embeds `DataValidator.validate_issue` (all fields are typed strings
in the model, so the `isinstance` branch cannot fire). -/
def validate_issue (i : Issue) : ValidationResult :=
  let errors :=
    (if i.issue_id = "" then ["Issue ID is required"] else []) ++
    (if i.creator_user_id = "" then ["Creator user ID is required"] else [])
  let warnings :=
    if i.assigned_group = "" then ["Assigned group is missing"] else []
  ⟨errors.length = 0, errors, warnings⟩

/-! ## Orchestrator counters: src/processors/issue_processor.py -/

/-- Embeds `ProcessingStats` / `ProcessingResult` counters. -/
structure ProcessingResult where
  total_processed : Nat
  successful_updates : Nat
  failed_updates : Nat
  skipped_updates : Nat
deriving DecidableEq, Repr

/-- Outcome of `await self.client.update_issue_creator_group(...)` for
one issue: returned `True`, returned `False`, or raised. -/
inductive UpdateOutcome where
  | ok
  | fail
  | err
deriving DecidableEq, Repr

/-- Embeds `IssueProcessor._process_single_issue`: the counter updates
for one issue.  `gmap` is `group_map.get` (group id → group, the group
modelled by its `id` field); `upd` is the update call outcome. -/
def process_single_issue (gmap : String → Option String)
    (upd : Issue → String → UpdateOutcome) (s : ProcessingResult)
    (i : Issue) : ProcessingResult :=
  let s := { s with total_processed := s.total_processed + 1 }
  if ¬ (validate_issue i).is_valid then
    { s with failed_updates := s.failed_updates + 1 }
  else
    match i.creator_group.bind gmap with
    | none => { s with failed_updates := s.failed_updates + 1 }
    | some gid =>
      match upd i gid with
      | .ok => { s with successful_updates := s.successful_updates + 1 }
      | .fail => { s with failed_updates := s.failed_updates + 1 }
      | .err => { s with failed_updates := s.failed_updates + 1 }

/-- Embeds `IssueProcessor.process_issues` at the level of counters:
every issue is processed exactly once (the batch loop partitions the
list; each `_process_single_issue` performs its increments once), and
`_build_result` copies the final stats, `skipped_updates` included. -/
def process_issues (gmap : String → Option String)
    (upd : Issue → String → UpdateOutcome) (issues : List Issue) :
    ProcessingResult :=
  issues.foldl (process_single_issue gmap upd) ⟨0, 0, 0, 0⟩

/-! ## Helper lemmas: chunking -/

theorem chunkList_nil (bs : Nat) : chunkList bs ([] : List α) = [] := by
  rw [chunkList]; simp

theorem chunkList_cons (bs : Nat) (l : List α) (hbs : bs ≠ 0) (hl : l ≠ []) :
    chunkList bs l = l.take bs :: chunkList bs (l.drop bs) := by
  rw [chunkList]; simp [hbs, hl]

theorem chunkList_flatten {bs : Nat} (hbs : bs ≠ 0) (l : List α) :
    (chunkList bs l).flatten = l := by
  induction l using chunkList.induct bs with
  | case1 x hx =>
    rcases hx with h | h
    · exact absurd h hbs
    · have : x = [] := by simpa using h
      subst this
      simp [chunkList_nil]
  | case2 x hx ih =>
    push_neg at hx
    have hne : x ≠ [] := by
      intro h; subst h; simp at hx
    rw [chunkList_cons bs x hbs hne]
    simp [ih, List.take_append_drop]

theorem chunkList_length {bs : Nat} (hbs : bs ≠ 0) (l : List α) :
    (chunkList bs l).length = (l.length + bs - 1) / bs := by
  induction l using chunkList.induct bs with
  | case1 x hx =>
    rcases hx with h | h
    · exact absurd h hbs
    · have : x = [] := by simpa using h
      subst this
      rw [chunkList_nil]
      have : bs - 1 < bs := by omega
      simp [Nat.div_eq_of_lt this]
  | case2 x hx ih =>
    push_neg at hx
    have hne : x ≠ [] := by
      intro h; subst h; simp at hx
    have hlen : x.length ≠ 0 := by simpa using hne
    rw [chunkList_cons bs x hbs hne]
    simp only [List.length_cons, ih, List.length_drop]
    rcases le_or_lt x.length bs with hle | hlt
    · have h1 : x.length - bs = 0 := by omega
      rw [h1]
      have h2 : (0 + bs - 1) / bs = 0 := Nat.div_eq_of_lt (by omega)
      have h3 : (x.length + bs - 1) / bs = 1 := by
        apply Nat.div_eq_of_lt_le <;> omega
      rw [h2, h3]
    · have h1 : x.length + bs - 1 = (x.length - bs + bs - 1) + bs := by omega
      rw [h1, Nat.add_div_right _ (by omega : 0 < bs)]

theorem chunkList_mem_length {bs : Nat} (hbs : bs ≠ 0) (l : List α) :
    ∀ c ∈ chunkList bs l, c.length ≤ bs ∧ c ≠ [] := by
  induction l using chunkList.induct bs with
  | case1 x hx =>
    rcases hx with h | h
    · exact absurd h hbs
    · have : x = [] := by simpa using h
      subst this
      rw [chunkList_nil]
      intro c hc
      simp at hc
  | case2 x hx ih =>
    push_neg at hx
    have hne : x ≠ [] := by
      intro h; subst h; simp at hx
    rw [chunkList_cons bs x hbs hne]
    intro c hc
    rcases List.mem_cons.mp hc with rfl | hc2
    · have hlen : x.length ≠ 0 := by simpa using hne
      constructor
      · rw [List.length_take]
        omega
      · intro h
        have hlen2 := congrArg List.length h
        rw [List.length_take] at hlen2
        simp only [List.length_nil] at hlen2
        omega
    · exact ih c hc2

/-! ## Helper lemmas: batch processing -/

theorem processChunks_all_ok (maxFail : Nat) (fn : List T → Except E (List R))
    (h : ∀ c, (fn c).isOk) (consec : Nat) (chunks : List (List T)) :
    processChunks maxFail fn consec chunks =
      .ok (chunks.map fun c => ⟨c, (fn c).toOption.getD [], true, none⟩) := by
  induction chunks generalizing consec with
  | nil => rfl
  | cons c cs ih =>
    have hc := h c
    cases hfc : fn c with
    | ok out =>
      simp only [processChunks, hfc, ih 0, List.map_cons, Except.toOption,
        Option.getD]
    | error e =>
      rw [hfc] at hc
      simp [Except.isOk, Except.toBool] at hc

theorem except_isOk_map (f : α → β) (x : Except ε α) :
    (x.map f).isOk = x.isOk := by
  cases x <;> rfl

theorem processChunks_cons_ok {fn : List T → Except E (List R)}
    {c : List T} {out : List R} (maxFail consec : Nat) (cs : List (List T))
    (hfc : fn c = .ok out) :
    processChunks maxFail fn consec (c :: cs) =
      (processChunks maxFail fn 0 cs).map
        (fun rest => (⟨c, out, true, none⟩ : BatchResult T R E) :: rest) := by
  simp only [processChunks, hfc]
  cases processChunks maxFail fn 0 cs <;> rfl

theorem processChunks_cons_err {fn : List T → Except E (List R)}
    {c : List T} {e : E} (maxFail consec : Nat) (cs : List (List T))
    (hfc : fn c = .error e) (h : ¬ maxFail ≤ consec + 1) :
    processChunks maxFail fn consec (c :: cs) =
      (processChunks maxFail fn (consec + 1) cs).map
        (fun rest => (⟨c, [], false, some e⟩ : BatchResult T R E) :: rest) := by
  simp only [processChunks, hfc, if_neg h]
  cases processChunks maxFail fn (consec + 1) cs <;> rfl

theorem processChunks_cons_abort {fn : List T → Except E (List R)}
    {c : List T} {e : E} (maxFail consec : Nat)
    (hfc : fn c = .error e) (h : maxFail ≤ consec + 1) (rest : List (List T)) :
    processChunks maxFail fn consec (c :: rest) = .error (.fatal maxFail) := by
  simp only [processChunks, hfc, if_pos h]

theorem processChunks_not_ok_iff (maxFail : Nat)
    (fn : List T → Except E (List R)) (consec : Nat) (cs : List (List T)) :
    (processChunks maxFail fn consec cs).isOk = false ↔
      processChunks maxFail fn consec cs = .error (.fatal maxFail) := by
  induction cs generalizing consec with
  | nil => simp [processChunks, Except.isOk, Except.toBool]
  | cons c cs ih =>
    cases hfc : fn c with
    | ok out =>
      rw [processChunks_cons_ok maxFail consec cs hfc, except_isOk_map]
      rw [ih 0]
      cases processChunks maxFail fn 0 cs <;>
        simp_all [Except.map]
    | error e =>
      by_cases h : maxFail ≤ consec + 1
      · rw [processChunks_cons_abort maxFail consec hfc h cs]
        simp [Except.isOk, Except.toBool]
      · rw [processChunks_cons_err maxFail consec cs hfc h, except_isOk_map]
        rw [ih (consec + 1)]
        cases processChunks maxFail fn (consec + 1) cs <;>
          simp_all [Except.map]

theorem replicate_prefix_of_le {m n : Nat} (h : m ≤ n) (a : α) {l : List α}
    (hp : List.replicate n a <+: l) : List.replicate m a <+: l := by
  refine List.IsPrefix.trans ?_ hp
  refine ⟨List.replicate (n - m) a, ?_⟩
  rw [← List.replicate_add]
  congr 1
  omega

theorem prefix_isInfix {l₁ l₂ : List α} (h : l₁ <+: l₂) : l₁ <:+: l₂ := by
  obtain ⟨t, ht⟩ := h
  exact ⟨[], t, by simpa using ht⟩

theorem replicate_succ_prefix_cons {n : Nat} {a b : α} {l : List α} :
    List.replicate (n + 1) a <+: b :: l ↔ a = b ∧ List.replicate n a <+: l := by
  rw [List.replicate_succ, List.cons_prefix_cons]

theorem processChunks_error_iff (maxFail : Nat)
    (fn : List T → Except E (List R)) (hmf : maxFail ≠ 0) :
    ∀ (cs : List (List T)) (consec : Nat), consec < maxFail →
      ((processChunks maxFail fn consec cs).isOk = false ↔
        (List.replicate (maxFail - consec) true <+:
            cs.map (fun c => !(fn c).isOk)) ∨
        (List.replicate maxFail true <:+: cs.map (fun c => !(fn c).isOk))) := by
  intro cs
  induction cs with
  | nil =>
    intro consec hc
    simp only [processChunks, List.map_nil, List.prefix_nil, List.infix_nil,
      List.replicate_eq_nil_iff]
    constructor
    · intro h; simp [Except.isOk, Except.toBool] at h
    · intro h; omega
  | cons c cs ih =>
    intro consec hc
    cases hfc : fn c with
    | ok out =>
      have hmask : (!(fn c).isOk) = false := by
        rw [hfc]; rfl
      rw [processChunks_cons_ok maxFail consec cs hfc, except_isOk_map,
        List.map_cons, hmask, ih 0 (by omega)]
      have hk1 : 1 ≤ maxFail - consec := by omega
      constructor
      · rintro (hp | hi)
        · right
          rw [List.infix_cons_iff]
          right
          exact prefix_isInfix (by simpa using hp)
        · right
          rw [List.infix_cons_iff]
          right
          exact hi
      · rintro (hp | hi)
        · exfalso
          obtain ⟨m, hm⟩ : ∃ m, maxFail - consec = m + 1 := ⟨maxFail - consec - 1, by omega⟩
          rw [hm, replicate_succ_prefix_cons] at hp
          simp at hp
        · rw [List.infix_cons_iff] at hi
          rcases hi with hp | hi
          · exfalso
            obtain ⟨m, hm⟩ : ∃ m, maxFail = m + 1 := ⟨maxFail - 1, by omega⟩
            rw [hm, replicate_succ_prefix_cons] at hp
            simp at hp
          · right
            exact hi
    | error e =>
      have hmask : (!(fn c).isOk) = true := by
        rw [hfc]; rfl
      rw [List.map_cons, hmask]
      by_cases h : maxFail ≤ consec + 1
      · rw [processChunks_cons_abort maxFail consec hfc h cs]
        have hk : maxFail - consec = 1 := by omega
        simp only [Except.isOk, Except.toBool, hk]
        constructor
        · intro _
          left
          rw [replicate_succ_prefix_cons]
          exact ⟨rfl, by simp⟩
        · intro _; trivial
      · rw [processChunks_cons_err maxFail consec cs hfc h, except_isOk_map,
          ih (consec + 1) (by omega)]
        have hk2 : maxFail - consec = (maxFail - (consec + 1)) + 1 := by omega
        constructor
        · rintro (hp | hi)
          · left
            rw [hk2, replicate_succ_prefix_cons]
            exact ⟨rfl, hp⟩
          · right
            rw [List.infix_cons_iff]
            right
            exact hi
        · rintro (hp | hi)
          · left
            rw [hk2, replicate_succ_prefix_cons] at hp
            exact hp.2
          · rw [List.infix_cons_iff] at hi
            rcases hi with hp | hi
            · left
              obtain ⟨m, hm⟩ : ∃ m, maxFail = m + 1 := ⟨maxFail - 1, by omega⟩
              rw [hm, replicate_succ_prefix_cons] at hp
              exact replicate_prefix_of_le (by omega) true
                (by exact hp.2 : List.replicate m true <+: _)
            · right
              exact hi

theorem processChunks_eq_trace (maxFail : Nat)
    (fn : List T → Except E (List R)) (consec : Nat) (cs : List (List T)) :
    processChunks maxFail fn consec cs =
      if (processTrace maxFail fn consec cs).2 then .error (.fatal maxFail)
      else .ok (processTrace maxFail fn consec cs).1 := by
  induction cs generalizing consec with
  | nil => rfl
  | cons c cs ih =>
    cases hfc : fn c with
    | ok out =>
      rw [processChunks_cons_ok maxFail consec cs hfc, ih 0]
      simp only [processTrace, hfc]
      by_cases ht : (processTrace maxFail fn 0 cs).2 <;> simp [ht, Except.map]
    | error e =>
      by_cases h : maxFail ≤ consec + 1
      · rw [processChunks_cons_abort maxFail consec hfc h cs]
        simp [processTrace, hfc, if_pos h]
      · rw [processChunks_cons_err maxFail consec cs hfc h, ih (consec + 1)]
        simp only [processTrace, hfc, if_neg h]
        by_cases ht : (processTrace maxFail fn (consec + 1) cs).2 <;>
          simp [ht, Except.map]

/-! ## Helper lemmas: retry -/

theorem asyncRetryGo_ext (eligible : E → Bool) (delay backoff : ℚ)
    (u : Nat → ℚ) (a1 a2 : Nat → Except E A) :
    ∀ (r i : Nat), (∀ j, i ≤ j → j < i + r → a1 j = a2 j) →
      asyncRetryGo eligible delay backoff a1 u r i =
        asyncRetryGo eligible delay backoff a2 u r i := by
  intro r
  induction r with
  | zero => intro i _; rfl
  | succ r ih =>
    intro i h
    have h0 : a1 i = a2 i := h i (le_refl i) (by omega)
    simp only [asyncRetryGo, ← h0]
    cases a1 i with
    | ok a => rfl
    | error e =>
      by_cases he : eligible e
      · simp only [he, if_true]
        by_cases hr : r = 0
        · simp [hr]
        · simp only [hr, if_false]
          rw [ih (i + 1) (fun j hj1 hj2 => h j (by omega) (by omega))]
      · simp [he]

theorem asyncRetryGo_sleeps_le (eligible : E → Bool) (delay backoff : ℚ)
    (attempts : Nat → Except E A) (u : Nat → ℚ) :
    ∀ (r i : Nat),
      (asyncRetryGo eligible delay backoff attempts u r i).2.length ≤ r - 1 := by
  intro r
  induction r with
  | zero => intro i; simp [asyncRetryGo]
  | succ r ih =>
    intro i
    simp only [asyncRetryGo]
    cases attempts i with
    | ok a => simp
    | error e =>
      by_cases he : eligible e
      · simp only [he, if_true]
        by_cases hr : r = 0
        · simp [hr]
        · simp only [hr, if_false, List.length_cons]
          have := ih (i + 1)
          omega
      · simp [he]

theorem asyncRetryGo_run (eligible : E → Bool) (delay backoff : ℚ)
    (attempts : Nat → Except E A) (u : Nat → ℚ) :
    ∀ (k r i : Nat), k < r →
      (∀ j, i ≤ j → j < i + k →
        ∃ e, attempts j = .error e ∧ eligible e = true) →
      asyncRetryGo eligible delay backoff attempts u r i =
        ((asyncRetryGo eligible delay backoff attempts u (r - k) (i + k)).1,
          (List.range' i k).map (retrySleep delay backoff u) ++
            (asyncRetryGo eligible delay backoff attempts u (r - k) (i + k)).2) := by
  intro k
  induction k with
  | zero => intro r i _ _; simp
  | succ k ih =>
    intro r i hk h
    obtain ⟨e, he, helig⟩ := h i (le_refl i) (by omega)
    obtain ⟨r', rfl⟩ : ∃ r', r = r' + 1 := ⟨r - 1, by omega⟩
    simp only [asyncRetryGo, he, helig, if_true]
    have hr0 : r' ≠ 0 := by omega
    rw [if_neg hr0]
    rw [ih r' (i + 1) (by omega) (fun j h1 h2 => h j (by omega) (by omega))]
    have harith : r' + 1 - (k + 1) = r' - k := by omega
    have hidx : i + (k + 1) = i + 1 + k := by omega
    rw [harith, hidx, List.range'_succ, List.map_cons, List.cons_append]

/-! ## Claim C4 -/

/-- Claim C4: for every list of `N` items and every chunk size `B > 0`
(and a chunk function that raises on no chunk, so that processing
completes), `process_batch` produces exactly `⌈N/B⌉` `BatchResult`
outcomes whose `input_items` are consecutive, non-overlapping, nonempty
chunks of at most `B` items that concatenate, in order, to the original
input list, with `fn` applied to the chunks in that order. -/
theorem process_batch_chunking (bs maxFail : Nat) (items : List T)
    (fn : List T → Except E (List R)) (hbs : bs ≠ 0)
    (hfn : ∀ c, (fn c).isOk) :
    ∃ rs : List (BatchResult T R E),
      process_batch bs maxFail items fn = .ok rs ∧
      rs.length = (items.length + bs - 1) / bs ∧
      (rs.map (fun r => r.input_items)).flatten = items ∧
      (∀ r ∈ rs, r.input_items.length ≤ bs ∧ r.input_items ≠ []) ∧
      (∀ r ∈ rs, fn r.input_items = .ok r.output_items ∧
        r.success = true ∧ r.error = none) := by
  refine ⟨_, processChunks_all_ok maxFail fn hfn 0 (chunkList bs items),
    ?_, ?_, ?_, ?_⟩
  · rw [List.length_map, chunkList_length hbs]
  · rw [List.map_map]
    have hid : ((fun r : BatchResult T R E => r.input_items) ∘
        (fun c => ⟨c, (fn c).toOption.getD [], true, none⟩)) = id := rfl
    rw [hid, List.map_id, chunkList_flatten hbs]
  · intro r hr
    rw [List.mem_map] at hr
    obtain ⟨c, hc, rfl⟩ := hr
    exact chunkList_mem_length hbs items c hc
  · intro r hr
    rw [List.mem_map] at hr
    obtain ⟨c, hc, rfl⟩ := hr
    have hok := hfn c
    cases hfc : fn c with
    | ok out =>
      exact ⟨rfl, rfl, rfl⟩
    | error e =>
      rw [hfc] at hok
      simp [Except.isOk, Except.toBool] at hok

/-- Witness for C4 at `B = 2`, `items = [1, 2, 3]`, `fn = Except.ok`. -/
theorem process_batch_chunking_witness :
    (2 ≠ 0) ∧ (∀ c : List Nat, ((Except.ok c : Except Unit (List Nat))).isOk) ∧
    ∃ rs : List (BatchResult Nat Nat Unit),
      process_batch 2 1 [1, 2, 3] (fun c => .ok c) = .ok rs ∧
      rs.length = (([1, 2, 3] : List Nat).length + 2 - 1) / 2 ∧
      (rs.map (fun r => r.input_items)).flatten = [1, 2, 3] ∧
      (∀ r ∈ rs, r.input_items.length ≤ 2 ∧ r.input_items ≠ []) ∧
      (∀ r ∈ rs, (fun c => (.ok c : Except Unit (List Nat))) r.input_items
          = .ok r.output_items ∧ r.success = true ∧ r.error = none) :=
  ⟨by decide, fun c => rfl,
    process_batch_chunking 2 1 [1, 2, 3] (fun c => .ok c) (by decide)
      (fun c => rfl)⟩

/-! ## Claim C5 -/

/-- Claim C5: `process_batch` maintains a consecutive-failure counter:
a successful chunk records a successful outcome and resets the counter
to 0; a raising chunk records a failed outcome (empty output, error
attached) and increments the counter; when the incremented counter
reaches `max_consecutive_failures` processing aborts immediately with
the fatal error, independently of all later chunks (so `fn` is not
applied to them); and — for a fresh processor — the run aborts exactly
when some `maxFail` consecutive chunks all raise. -/
theorem process_batch_consecutive_failures (maxFail : Nat)
    (fn : List T → Except E (List R)) :
    (∀ (consec : Nat) (c : List T) (out : List R) (cs : List (List T)),
      fn c = .ok out →
      processChunks maxFail fn consec (c :: cs) =
        (processChunks maxFail fn 0 cs).map
          (fun rest => (⟨c, out, true, none⟩ : BatchResult T R E) :: rest)) ∧
    (∀ (consec : Nat) (c : List T) (e : E) (cs : List (List T)),
      fn c = .error e → consec + 1 < maxFail →
      processChunks maxFail fn consec (c :: cs) =
        (processChunks maxFail fn (consec + 1) cs).map
          (fun rest => (⟨c, [], false, some e⟩ : BatchResult T R E) :: rest)) ∧
    (∀ (consec : Nat) (c : List T) (e : E),
      fn c = .error e → maxFail ≤ consec + 1 →
      ∀ rest : List (List T),
        processChunks maxFail fn consec (c :: rest) =
          .error (.fatal maxFail)) ∧
    (maxFail ≠ 0 → ∀ (bs : Nat) (items : List T),
      (process_batch bs maxFail items fn = .error (.fatal maxFail) ↔
        List.replicate maxFail true <:+:
          (chunkList bs items).map (fun c => !(fn c).isOk))) := by
  refine ⟨?_, ?_, ?_, ?_⟩
  · intro consec c out cs hfc
    exact processChunks_cons_ok maxFail consec cs hfc
  · intro consec c e cs hfc h
    exact processChunks_cons_err maxFail consec cs hfc (by omega)
  · intro consec c e hfc h rest
    exact processChunks_cons_abort maxFail consec hfc h rest
  · intro hmf bs items
    rw [process_batch, ← processChunks_not_ok_iff,
      processChunks_error_iff maxFail fn hmf (chunkList bs items) 0 (by omega)]
    constructor
    · rintro (hp | hi)
      · exact prefix_isInfix (by simpa using hp)
      · exact hi
    · intro hi
      right
      exact hi

/-- Witness for C5: reset at `consec = 5` on a succeeding chunk;
increment at `consec = 0` on a raising chunk; immediate abort at
`consec = 1` with threshold 2; and the abort-iff-run characterization
on a concrete three-chunk run. -/
theorem process_batch_consecutive_failures_witness :
    ((fun c : List Nat => if c = [2] then (.error "x" : Except String (List Nat)) else .ok c) [1] = .ok [1]) ∧
    (processChunks 2 (fun c : List Nat => if c = [2] then .error "x" else .ok c) 5 [[1], [2]] =
      (processChunks 2 (fun c : List Nat => if c = [2] then .error "x" else .ok c) 0 [[2]]).map
        (fun rest => (⟨[1], [1], true, none⟩ : BatchResult Nat Nat String) :: rest)) ∧
    (processChunks 2 (fun c : List Nat => if c = [2] then .error "x" else .ok c) 0 [[2], [1]] =
      (processChunks 2 (fun c : List Nat => if c = [2] then .error "x" else .ok c) 1 [[1]]).map
        (fun rest => (⟨[2], [], false, some "x"⟩ : BatchResult Nat Nat String) :: rest)) ∧
    (processChunks 2 (fun c : List Nat => if c = [2] then .error "x" else .ok c) 1 [[2], [1]] =
      .error (.fatal 2)) ∧
    (process_batch 1 2 [3, 2, 2] (fun c : List Nat => if c = [2] then .error "x" else .ok c) =
      .error (.fatal 2)) := by
  refine ⟨rfl, ?_, ?_, ?_, ?_⟩
  · exact (process_batch_consecutive_failures 2 _).1 5 [1] [1] [[2]] rfl
  · exact (process_batch_consecutive_failures 2 _).2.1 0 [2] "x" [[1]] rfl (by omega)
  · exact (process_batch_consecutive_failures 2 _).2.2.1 1 [2] "x" rfl (by omega) [[1]]
  · refine ((process_batch_consecutive_failures 2 _).2.2.2 (by decide) 1 [3, 2, 2]).mpr ?_
    have h1 : chunkList 1 [3, 2, 2] = [[3], [2], [2]] := by
      rw [chunkList_cons 1 _ (by decide) (by decide),
        chunkList_cons 1 _ (by decide) (by decide),
        chunkList_cons 1 _ (by decide) (by decide)]
      simp [chunkList_nil]
    rw [h1]
    decide

/-! ## Claim C10 -/

/-- Claim C10 (implicit): when `process_batch` aborts on reaching the
consecutive-failure threshold, the caller receives only the raised
fatal error — which carries no outcomes — and none of the
`BatchResult`s already built for earlier chunks (here: at least one of
them successful) is ever returned. -/
theorem process_batch_abort_discards (bs maxFail : Nat) (items : List T)
    (fn : List T → Except E (List R))
    (hab : (processTrace maxFail fn 0 (chunkList bs items)).2 = true)
    (hsucc : ∃ r ∈ (processTrace maxFail fn 0 (chunkList bs items)).1,
      r.success = true) :
    process_batch bs maxFail items fn = .error (.fatal maxFail) ∧
    ∀ rs : List (BatchResult T R E),
      process_batch bs maxFail items fn ≠ .ok rs := by
  have h := processChunks_eq_trace maxFail fn 0 (chunkList bs items)
  rw [hab, if_pos rfl] at h
  refine ⟨h, ?_⟩
  intro rs hrs
  rw [process_batch] at hrs
  rw [h] at hrs
  exact Except.noConfusion hrs

/-- Witness for C10: chunk `[1]` succeeds (its `BatchResult` is in the
trace), chunk `[2]` raises and trips the threshold 1; the call returns
only the fatal error. -/
theorem process_batch_abort_discards_witness :
    ((processTrace 1 (fun c : List Nat => if c = [1] then .ok c else .error "x")
        0 (chunkList 1 [1, 2])).2 = true) ∧
    ((processTrace 1 (fun c : List Nat => if c = [1] then .ok c else .error "x")
        0 (chunkList 1 [1, 2])).1 =
      [⟨[1], [1], true, none⟩, ⟨[2], [], false, some "x"⟩]) ∧
    (process_batch 1 1 [1, 2]
        (fun c : List Nat => if c = [1] then .ok c else .error "x") =
      .error (.fatal 1)) := by
  have h1 : chunkList 1 [1, 2] = [[1], [2]] := by
    rw [chunkList_cons 1 _ (by decide) (by decide),
      chunkList_cons 1 _ (by decide) (by decide)]
    simp [chunkList_nil]
  refine ⟨by rw [h1]; decide, by rw [h1]; decide, ?_⟩
  exact (process_batch_abort_discards 1 1 [1, 2] _
    (by rw [h1]; decide) (by rw [h1]; decide)).1

/-! ## Claim C6 -/

/-- Claim C6: `async_retry(retries, delay, backoff, eligible)` invokes
the wrapped operation at most `retries` times (its result depends only
on the first `retries` outcomes, and at most `retries - 1` sleeps
occur); a non-eligible error propagates immediately, unchanged, with no
further attempt; an eligible error on the last allowed attempt is
re-raised unchanged; and the sleep between attempts `i` and `i + 1` is
`delay * backoff ^ i` plus a jitter `u i * delay` lying in
`[0, 0.1 * delay]` whenever the uniform sample `u i` lies in
`[0, 0.1]`. -/
theorem async_retry_spec (retries : Nat) (delay backoff : ℚ)
    (eligible : E → Bool) (attempts : Nat → Except E A) (u : Nat → ℚ) :
    (∀ a2 : Nat → Except E A, (∀ i < retries, attempts i = a2 i) →
      async_retry retries delay backoff eligible attempts u =
        async_retry retries delay backoff eligible a2 u) ∧
    ((async_retry retries delay backoff eligible attempts u).2.length
      ≤ retries - 1) ∧
    (∀ i e, i < retries →
      (∀ j < i, ∃ e0, attempts j = .error e0 ∧ eligible e0 = true) →
      attempts i = .error e → eligible e = false →
      async_retry retries delay backoff eligible attempts u =
        (.error (some e), (List.range i).map (retrySleep delay backoff u))) ∧
    (∀ e, retries ≠ 0 →
      (∀ j < retries - 1, ∃ e0, attempts j = .error e0 ∧ eligible e0 = true) →
      attempts (retries - 1) = .error e → eligible e = true →
      async_retry retries delay backoff eligible attempts u =
        (.error (some e),
          (List.range (retries - 1)).map (retrySleep delay backoff u))) ∧
    (∀ i, 0 ≤ u i → u i ≤ 1 / 10 → 0 ≤ delay →
      delay * backoff ^ i ≤ retrySleep delay backoff u i ∧
      retrySleep delay backoff u i ≤ delay * backoff ^ i + delay / 10) := by
  refine ⟨?_, ?_, ?_, ?_, ?_⟩
  · intro a2 h
    exact asyncRetryGo_ext eligible delay backoff u attempts a2 retries 0
      (fun j hj1 hj2 => h j (by omega))
  · exact asyncRetryGo_sleeps_le eligible delay backoff attempts u retries 0
  · intro i e hi h hatt helig
    rw [async_retry,
      asyncRetryGo_run eligible delay backoff attempts u i retries 0 hi
        (fun j hj1 hj2 => h j (by omega))]
    obtain ⟨s, hs⟩ : ∃ s, retries - i = s + 1 := ⟨retries - i - 1, by omega⟩
    rw [hs]
    simp only [Nat.zero_add, asyncRetryGo, hatt, helig]
    simp [List.range_eq_range']
  · intro e hr h hatt helig
    rw [async_retry,
      asyncRetryGo_run eligible delay backoff attempts u (retries - 1)
        retries 0 (by omega) (fun j hj1 hj2 => h j (by omega))]
    have hs : retries - (retries - 1) = 1 := by omega
    rw [hs]
    simp only [Nat.zero_add, asyncRetryGo, hatt, helig]
    simp [List.range_eq_range']
  · intro i hu0 hu1 hd
    constructor
    · have : 0 ≤ u i * delay := mul_nonneg hu0 hd
      rw [retrySleep]
      linarith
    · have h1 : u i * delay ≤ (1 / 10) * delay :=
        mul_le_mul_of_nonneg_right hu1 hd
      have h2 : (1 / 10 : ℚ) * delay = delay / 10 := by ring
      rw [retrySleep]
      linarith

/-- Witness for C6: with `retries = 3`, `delay = 1`, `backoff = 2`, only
`"rate"` eligible, zero jitter samples: attempt 0 fails eligibly,
attempt 1 fails with the non-eligible `"boom"`, which propagates at once
after a single sleep of `1 * 2 ^ 0 + 0`; with every attempt failing
eligibly and `retries = 2`, the last attempt's error is re-raised
unchanged; and the first sleep lies in `[delay * backoff ^ 0,
delay * backoff ^ 0 + delay / 10]`. -/
theorem async_retry_spec_witness :
    ((1 : Nat) < 3) ∧
    ((fun i => if i = 0 then .error "rate"
        else (.error "boom" : Except String Nat)) 1 = .error "boom") ∧
    ((fun s : String => decide (s = "rate")) "boom" = false) ∧
    (async_retry 3 1 2 (fun s : String => decide (s = "rate"))
        (fun i => if i = 0 then .error "rate" else (.error "boom" : Except String Nat))
        (fun _ => 0) =
      (.error (some "boom"),
        [retrySleep 1 2 (fun _ => 0) 0])) ∧
    (async_retry 2 1 2 (fun s : String => decide (s = "rate"))
        (fun _ => (.error "rate" : Except String Nat)) (fun _ => 0) =
      (.error (some "rate"),
        [retrySleep 1 2 (fun _ => 0) 0])) ∧
    ((1 : ℚ) * 2 ^ 0 ≤ retrySleep 1 2 (fun _ => 0) 0 ∧
      retrySleep 1 2 (fun _ => 0) 0 ≤ 1 * 2 ^ 0 + 1 / 10) := by
  refine ⟨by decide, rfl, by decide, ?_, ?_, ?_⟩
  · have h := (async_retry_spec 3 1 2 (fun s : String => decide (s = "rate"))
      (fun i => if i = 0 then .error "rate"
        else (.error "boom" : Except String Nat))
      (fun _ => 0)).2.2.1 1 "boom" (by decide)
      (fun j hj => by
        have hj0 : j = 0 := by omega
        subst hj0
        exact ⟨"rate", rfl, by decide⟩)
      rfl (by decide)
    simpa using h
  · have h := (async_retry_spec 2 1 2 (fun s : String => decide (s = "rate"))
      (fun _ => (.error "rate" : Except String Nat))
      (fun _ => 0)).2.2.2.1 "rate" (by decide)
      (fun j hj => ⟨"rate", rfl, by decide⟩)
      rfl (by decide)
    simpa using h
  · exact (async_retry_spec 2 1 2 (fun s : String => decide (s = "rate"))
      (fun _ => (.error "rate" : Except String Nat))
      (fun _ => 0)).2.2.2.2 0 (by norm_num) (by norm_num) (by norm_num)

/-! ## Helper lemmas: circuit breaker -/

theorem cbCall_closed_success (cb : CircuitBreaker) (t : ℚ)
    (h : cb.state = .closed) : cbCall cb (t, true) = cb := by
  obtain ⟨ft, rt, f, st, lsc⟩ := cb
  have h' : st = CircuitState.closed := h
  subst h'
  rfl

theorem cbCall_closed_failure (cb : CircuitBreaker) (t : ℚ)
    (h : cb.state = .closed) (hlt : cb.failures + 1 < cb.failure_threshold) :
    cbCall cb (t, false) = { cb with failures := cb.failures + 1 } := by
  obtain ⟨ft, rt, f, st, lsc⟩ := cb
  have h' : st = CircuitState.closed := h
  subst h'
  have hlt' : f + 1 < ft := hlt
  show (if ft ≤ f + 1 then _ else _) = _
  rw [if_neg (by omega)]
  rfl

theorem cbCall_closed_failure_open (cb : CircuitBreaker) (t : ℚ)
    (h : cb.state = .closed) (hge : cb.failure_threshold ≤ cb.failures + 1) :
    cbCall cb (t, false) =
      { cb with failures := cb.failures + 1, state := .opened,
                last_state_change := t } := by
  obtain ⟨ft, rt, f, st, lsc⟩ := cb
  have h' : st = CircuitState.closed := h
  subst h'
  have hge' : ft ≤ f + 1 := hge
  show (if ft ≤ f + 1 then _ else _) = _
  rw [if_pos hge']
  rfl

theorem cbRun_cons (cb : CircuitBreaker) (c : ℚ × Bool)
    (cs : List (ℚ × Bool)) : cbRun cb (c :: cs) = cbRun (cbCall cb c) cs := rfl

theorem cbRun_closed :
    ∀ (calls : List (ℚ × Bool)) (cb : CircuitBreaker),
      cb.state = .closed →
      cb.failures + calls.countP (fun c => !c.2) < cb.failure_threshold →
      (cbRun cb calls).state = .closed ∧
      (cbRun cb calls).failures =
        cb.failures + calls.countP (fun c => !c.2) := by
  intro calls
  induction calls with
  | nil =>
    intro cb h1 h2
    exact ⟨h1, by simp [cbRun]⟩
  | cons c cs ih =>
    intro cb h1 h2
    obtain ⟨t, b⟩ := c
    cases b with
    | true =>
      have hstep : cbCall cb (t, true) = cb := cbCall_closed_success cb t h1
      have hcount : ((t, true) :: cs).countP (fun c => !c.2) =
          cs.countP (fun c => !c.2) := by
        simp [List.countP_cons]
      rw [hcount] at h2 ⊢
      rw [cbRun_cons, hstep]
      exact ih cb h1 h2
    | false =>
      have hcount : ((t, false) :: cs).countP (fun c => !c.2) =
          cs.countP (fun c => !c.2) + 1 := by
        simp [List.countP_cons]
      rw [hcount] at h2
      have hlt : cb.failures + 1 < cb.failure_threshold := by omega
      have hstep : cbCall cb (t, false) =
          { cb with failures := cb.failures + 1 } :=
        cbCall_closed_failure cb t h1 hlt
      have hih := ih { cb with failures := cb.failures + 1 } h1 (by simp; omega)
      rw [hcount, cbRun_cons, hstep]
      refine ⟨hih.1, ?_⟩
      rw [hih.2]
      simp
      omega

theorem cbRun_leaves_closed :
    ∀ (calls : List (ℚ × Bool)) (cb : CircuitBreaker),
      cb.state = .closed → cb.failures < cb.failure_threshold →
      cb.failure_threshold ≤ cb.failures + calls.countP (fun c => !c.2) →
      ∃ p, p <+: calls ∧ (cbRun cb p).state ≠ .closed := by
  intro calls
  induction calls with
  | nil =>
    intro cb h1 h2 h3
    simp only [List.countP_nil, Nat.add_zero] at h3
    omega
  | cons c cs ih =>
    intro cb h1 h2 h3
    obtain ⟨t, b⟩ := c
    cases b with
    | true =>
      have hstep : cbCall cb (t, true) = cb := cbCall_closed_success cb t h1
      have hcount : ((t, true) :: cs).countP (fun c => !c.2) =
          cs.countP (fun c => !c.2) := by
        simp [List.countP_cons]
      rw [hcount] at h3
      obtain ⟨p, hp, hst⟩ := ih cb h1 h2 h3
      refine ⟨(t, true) :: p, List.cons_prefix_cons.mpr ⟨rfl, hp⟩, ?_⟩
      rw [cbRun_cons, hstep]
      exact hst
    | false =>
      have hcount : ((t, false) :: cs).countP (fun c => !c.2) =
          cs.countP (fun c => !c.2) + 1 := by
        simp [List.countP_cons]
      rw [hcount] at h3
      by_cases hge : cb.failure_threshold ≤ cb.failures + 1
      · refine ⟨[(t, false)], ⟨cs, rfl⟩, ?_⟩
        rw [cbRun_cons, cbCall_closed_failure_open cb t h1 hge]
        intro hcontra
        exact CircuitState.noConfusion hcontra
      · have hlt : cb.failures + 1 < cb.failure_threshold := by omega
        have hstep : cbCall cb (t, false) =
            { cb with failures := cb.failures + 1 } :=
          cbCall_closed_failure cb t h1 hlt
        obtain ⟨p, hp, hst⟩ := ih { cb with failures := cb.failures + 1 } h1
          (by simpa using hlt) (by simp; omega)
        refine ⟨(t, false) :: p, List.cons_prefix_cons.mpr ⟨rfl, hp⟩, ?_⟩
        rw [cbRun_cons, hstep]
        exact hst

/-! ## Claim C2 -/

/-- Counterexample to claim C2 as stated: with `failure_threshold = 2`
and the wrapped-call outcomes failure, success, failure — in which no
run of consecutive failures reaches 2 (the failure mask
`[true, false, true]` contains no `[true, true]` infix) — the breaker
nevertheless leaves CLOSED and is OPEN, because `on_success` does not
reset the counter while CLOSED. -/
theorem circuit_breaker_consecutive_cex :
    (¬ (List.replicate 2 true <:+:
      ([((0 : ℚ), false), (1, true), (2, false)].map (fun c => !c.2)))) ∧
    (cbRun (CircuitBreaker.init 2 60 0)
      [((0 : ℚ), false), (1, true), (2, false)]).state = .opened := by
  constructor
  · decide
  · rfl

/-- Claim C2 (amended): a success observed while CLOSED does *not*
reset the failure counter (only a success in HALF_OPEN does), so the
counter accumulates across intervening successes: for a positive
threshold, the breaker never leaves CLOSED — the state after every
prefix of the call sequence is CLOSED — exactly when the *total*
number of failures in the sequence is below `failure_threshold`; and
under that bound its counter equals that total. -/
theorem circuit_breaker_cumulative_failures (thresh : Nat)
    (timeout t0 : ℚ) (calls : List (ℚ × Bool)) (hthresh : thresh ≠ 0) :
    ((∀ p, p <+: calls →
        (cbRun (CircuitBreaker.init thresh timeout t0) p).state = .closed) ↔
      calls.countP (fun c => !c.2) < thresh) ∧
    (calls.countP (fun c => !c.2) < thresh →
      (cbRun (CircuitBreaker.init thresh timeout t0) calls).failures =
        calls.countP (fun c => !c.2)) := by
  constructor
  · constructor
    · intro hall
      by_contra hge
      push_neg at hge
      obtain ⟨p, hp, hst⟩ := cbRun_leaves_closed calls
        (CircuitBreaker.init thresh timeout t0) rfl
        (by simpa [CircuitBreaker.init] using Nat.pos_of_ne_zero hthresh)
        (by simpa [CircuitBreaker.init] using hge)
      exact hst (hall p hp)
    · intro h p hp
      have hcount : p.countP (fun c => !c.2) ≤ calls.countP (fun c => !c.2) :=
        hp.sublist.countP_le _
      exact (cbRun_closed p (CircuitBreaker.init thresh timeout t0) rfl
        (by simp [CircuitBreaker.init]; omega)).1
  · intro h
    have hres := cbRun_closed calls (CircuitBreaker.init thresh timeout t0)
      rfl (by simpa [CircuitBreaker.init] using h)
    simpa [CircuitBreaker.init] using hres.2

/-- Witness for C2 (amended): threshold 2, outcomes failure then
success: one failure in total, so every prefix — the full run
included — stays CLOSED and the counter ends at 1. -/
theorem circuit_breaker_cumulative_failures_witness :
    ((2 : Nat) ≠ 0) ∧
    (([((0 : ℚ), false), (1, true)].countP (fun c => !c.2)) < 2) ∧
    (cbRun (CircuitBreaker.init 2 60 0)
      [((0 : ℚ), false), (1, true)]).state = .closed ∧
    (cbRun (CircuitBreaker.init 2 60 0)
      [((0 : ℚ), false), (1, true)]).failures =
      [((0 : ℚ), false), (1, true)].countP (fun c => !c.2) := by
  have h := circuit_breaker_cumulative_failures 2 60 0
    [((0 : ℚ), false), (1, true)] (by decide)
  exact ⟨by decide, by decide,
    (h.1.mpr (by decide)) [((0 : ℚ), false), (1, true)] (List.prefix_refl _),
    h.2 (by decide)⟩

/-! ## Claim C7 -/

/-- Counterexample to claim C7 as stated: with `calls = 3`,
`period = 10`, recorded timestamps `[0, 1, 2]` and the 4th `acquire`
entering at `now = 3`, the call sleeps 7 seconds (access is granted at
time 10), but the timestamp it records is the entry time 3 — not the
time at which access is granted. -/
theorem acquire_records_entry_time_cex :
    acquire 3 10 [0, 1, 2] 3 = (7, [0, 1, 2, 3]) ∧
    ((3 : ℚ) + (acquire 3 10 [0, 1, 2] 3).1 = 10) ∧
    ((acquire 3 10 [0, 1, 2] 3).2.getLast? = some 3) ∧
    ((3 : ℚ) ≠ 10) := by
  have hf : List.filter (fun t => decide ((3 : ℚ) - 10 < t)) [0, 1, 2]
      = [0, 1, 2] := by
    norm_num [List.filter]
  have ha : acquire 3 10 [0, 1, 2] 3 = (7, [0, 1, 2, 3]) := by
    simp only [acquire, hf]
    norm_num [List.min?, List.foldl, max_def]
  refine ⟨ha, by rw [ha]; norm_num, by rw [ha]; rfl, by norm_num⟩

/-- Claim C7 (amended): when at least `calls` timestamps survive
pruning, `acquire` sleeps exactly until the oldest surviving recorded
timestamp is `period` old (no wait if that lies in the past): access is
granted at `max now (oldest + period)`.  It then records the timestamp
captured at entry — `now`, not the grant time — appended after the
surviving timestamps. -/
theorem acquire_wait_and_record (calls : Nat) (period : ℚ)
    (times : List ℚ) (now : ℚ)
    (hq : calls ≤ (times.filter (fun t => now - period < t)).length) :
    (now + (acquire calls period times now).1 =
      max now ((((times.filter (fun t => now - period < t)).min?).getD 0)
        + period)) ∧
    ((acquire calls period times now).2 =
      times.filter (fun t => now - period < t) ++ [now]) ∧
    ((acquire calls period times now).2.getLast? = some now) := by
  refine ⟨?_, rfl, ?_⟩
  · show now + (if calls ≤ (times.filter (fun t => now - period < t)).length
        then max 0 ((((times.filter (fun t => now - period < t)).min?).getD 0)
          + period - now)
        else 0) = _
    rw [if_pos hq]
    set g := (((times.filter (fun t => now - period < t)).min?).getD 0) with hg
    rcases le_total (g + period) now with hle | hle
    · rw [max_eq_left hle, max_eq_left (by linarith : g + period - now ≤ 0)]
      ring
    · rw [max_eq_right hle, max_eq_right (by linarith : 0 ≤ g + period - now)]
      ring
  · exact List.getLast?_concat _

/-- Witness for C7 (amended) at `calls = 3`, `period = 10`,
`times = [0, 1, 2]`, `now = 3`: the over-quota hypothesis holds and the
4th acquire is granted at `max 3 (0 + 10) = 10` while recording entry
time 3. -/
theorem acquire_wait_and_record_witness :
    (3 ≤ (List.filter (fun t => decide ((3 : ℚ) - 10 < t)) [0, 1, 2]).length) ∧
    ((3 : ℚ) + (acquire 3 10 [0, 1, 2] 3).1 =
      max 3 ((((List.filter (fun t => decide ((3 : ℚ) - 10 < t))
        [0, 1, 2]).min?).getD 0) + 10)) ∧
    ((acquire 3 10 [0, 1, 2] 3).2 =
      List.filter (fun t => decide ((3 : ℚ) - 10 < t)) [0, 1, 2] ++ [3]) ∧
    ((acquire 3 10 [0, 1, 2] 3).2.getLast? = some 3) := by
  have hf : List.filter (fun t => decide ((3 : ℚ) - 10 < t)) [0, 1, 2]
      = [0, 1, 2] := by
    norm_num [List.filter]
  have hq : 3 ≤ (List.filter (fun t => decide ((3 : ℚ) - 10 < t))
      [0, 1, 2]).length := by
    rw [hf]
    norm_num
  exact ⟨hq, acquire_wait_and_record 3 10 [0, 1, 2] 3 hq⟩

/-! ## Claim C8 -/

/-- Counterexample to claim C8 as stated: `set(k, v, ttl=0)` does not
expire immediately.  With default TTL 3600, a `get` immediately after
the `set` — and even 100 seconds later — returns the value, because
`ttl or self.ttl` treats the falsy `0` as "use the default". -/
theorem cache_ttl_zero_cex :
    ((cacheGet 0 "k" (cacheSet 0 "k" "v" (some 0) (Cache.empty 3600))).1
      = some "v") ∧
    ((cacheGet 0 "k" (cacheSet 0 "k" "v" (some 0) (Cache.empty 3600))).1
      ≠ none) ∧
    ((cacheGet 100 "k" (cacheSet 0 "k" "v" (some 0) (Cache.empty 3600))).1
      = some "v") := by
  have h0 : (cacheSet 0 "k" "v" (some 0) ((Cache.empty 3600 : CacheState String))).store "k"
      = some ("v", 0 + 3600) := by
    simp [cacheSet, effectiveTtl, Cache.empty]
  refine ⟨?_, ?_, ?_⟩
  · simp only [cacheGet, h0]
    norm_num [is_expired]
  · simp only [cacheGet, h0]
    norm_num [is_expired]
    exact Option.noConfusion
  · simp only [cacheGet, h0]
    norm_num [is_expired]

/-- Claim C8 (amended): `get(k)` after `set(k, v, ttl)` returns `v`
while `now ≤ set_time + effectiveTtl` and returns absent — evicting the
entry — once `now > set_time + effectiveTtl`, where `effectiveTtl` is
the requested TTL except that both `None` and `0` fall back to the
cache default (`ttl or self.ttl`).  In particular `set(k, v, ttl=0)`
stores exactly what `set(k, v)` with the default TTL stores, so a `get`
at any time up to the default TTL after the set returns `v`, not
absent. -/
theorem cache_ttl_semantics (V : Type) :
    (∀ (c : CacheState V) (k : String) (v : V) (t0 : ℚ),
      cacheSet t0 k v (some 0) c = cacheSet t0 k v none c) ∧
    (∀ (c : CacheState V) (k : String) (v : V) (ttl? : Option ℚ) (t0 t1 : ℚ),
      t1 ≤ t0 + effectiveTtl c ttl? →
      cacheGet t1 k (cacheSet t0 k v ttl? c) =
        (some v, cacheSet t0 k v ttl? c)) ∧
    (∀ (c : CacheState V) (k : String) (v : V) (ttl? : Option ℚ) (t0 t1 : ℚ),
      t0 + effectiveTtl c ttl? < t1 →
      (cacheGet t1 k (cacheSet t0 k v ttl? c)).1 = none ∧
      ((cacheGet t1 k (cacheSet t0 k v ttl? c)).2).store k = none) := by
  have hstore : ∀ (c : CacheState V) (k : String) (v : V) (ttl? : Option ℚ)
      (t0 : ℚ), (cacheSet t0 k v ttl? c).store k
        = some (v, t0 + effectiveTtl c ttl?) := by
    intro c k v ttl? t0
    simp [cacheSet]
  refine ⟨?_, ?_, ?_⟩
  · intro c k v t0
    simp [cacheSet, effectiveTtl]
  · intro c k v ttl? t0 t1 h
    have hexp : is_expired t1 (t0 + effectiveTtl c ttl?) = false := by
      simp only [is_expired, decide_eq_false_iff_not, not_lt]
      exact h
    simp only [cacheGet, hstore, hexp]
    simp
  · intro c k v ttl? t0 t1 h
    have hexp : is_expired t1 (t0 + effectiveTtl c ttl?) = true := by
      simp only [is_expired, decide_eq_true_eq]
      exact h
    simp only [cacheGet, hstore, hexp]
    simp

/-- Witness for C8 (amended): default TTL 3600; `set` at time 0 with
`ttl = 0` equals `set` with the default; a `get` at time 100 (within
the effective TTL) returns the value; a `get` at time 5000 (past it)
reports absent and evicts. -/
theorem cache_ttl_semantics_witness :
    (cacheSet 0 "k" "v" (some 0) (Cache.empty 3600) =
      cacheSet 0 "k" "v" none (Cache.empty 3600)) ∧
    ((100 : ℚ) ≤ 0 + effectiveTtl ((Cache.empty 3600 : CacheState String)) (some 0)) ∧
    (cacheGet 100 "k" (cacheSet 0 "k" "v" (some 0) (Cache.empty 3600)) =
      (some "v", cacheSet 0 "k" "v" (some 0) (Cache.empty 3600))) ∧
    ((0 : ℚ) + effectiveTtl ((Cache.empty 3600 : CacheState String)) (some 0) < 5000) ∧
    ((cacheGet 5000 "k" (cacheSet 0 "k" "v" (some 0) (Cache.empty 3600))).1
      = none) := by
  have h1 : (100 : ℚ) ≤ 0 + effectiveTtl ((Cache.empty 3600 : CacheState String))
      (some 0) := by
    norm_num [effectiveTtl, Cache.empty]
  have h2 : (0 : ℚ) + effectiveTtl ((Cache.empty 3600 : CacheState String))
      (some 0) < 5000 := by
    norm_num [effectiveTtl, Cache.empty]
  exact ⟨(cache_ttl_semantics String).1 (Cache.empty 3600) "k" "v" 0, h1,
    (cache_ttl_semantics String).2.1 (Cache.empty 3600) "k" "v" (some 0) 0 100 h1,
    h2,
    ((cache_ttl_semantics String).2.2 (Cache.empty 3600) "k" "v" (some 0) 0 5000 h2).1⟩

/-! ## Helper lemmas: client cache key -/

theorem mergeSort_sorted_le (l : List String) :
    List.Sorted (· ≤ ·) (l.mergeSort (fun a b => decide (a ≤ b))) := by
  have h := @List.sorted_mergeSort String
    (fun a b : String => decide (a ≤ b))
    (fun a b c hab hbc => by
      simp only [decide_eq_true_eq] at *
      exact le_trans hab hbc)
    (fun a b => by
      rcases le_total a b with hab | hab <;> simp [hab])
    l
  exact h.imp (fun hab => by simpa using hab)

theorem cacheKey_perm {ids1 ids2 : List String} (h : ids1.Perm ids2) :
    cacheKey ids1 = cacheKey ids2 := by
  have hs : ids1.mergeSort (fun a b => decide (a ≤ b)) =
      ids2.mergeSort (fun a b => decide (a ≤ b)) := by
    haveI : IsAntisymm String (· ≤ ·) := ⟨fun a b h1 h2 => le_antisymm h1 h2⟩
    refine List.eq_of_perm_of_sorted ?_ (mergeSort_sorted_le ids1)
      (mergeSort_sorted_le ids2)
    exact (List.mergeSort_perm ids1 _).trans
      (h.trans (List.mergeSort_perm ids2 _).symm)
  rw [cacheKey, cacheKey, hs]

/-! ## Claim C9 -/

/-- Counterexample to claim C9 as stated: if the first
`get_user_groups(["U1"])` call's network response is empty, the empty
list is cached but `if cached:` treats it as a miss, so a second
identical call performs another network call (1, not 0). -/
theorem get_user_groups_empty_cache_cex :
    ((get_user_groups 0 ["U1"] [] (Cache.empty 3600)).1 = []) ∧
    ((get_user_groups 0 ["U1"] [] (Cache.empty 3600)).2.1 = 1) ∧
    ((get_user_groups 0 ["U1"] []
        (get_user_groups 0 ["U1"] [] (Cache.empty 3600)).2.2).2.1 = 1) := by
  have h1 : get_user_groups 0 ["U1"] [] (Cache.empty 3600) =
      ([], 1, cacheSet 0 (cacheKey ["U1"]) [] none (Cache.empty 3600)) := by
    simp [get_user_groups, cacheGet, Cache.empty, userGroupsOf]
  have hstore : (cacheSet 0 (cacheKey ["U1"]) ([] : List UserGroup) none
      (Cache.empty 3600)).store (cacheKey ["U1"])
        = some ([], 0 + 3600) := by
    simp [cacheSet, effectiveTtl, Cache.empty]
  have hexp : is_expired 0 ((0 : ℚ) + 3600) = false := by
    norm_num [is_expired]
  refine ⟨by rw [h1], by rw [h1], ?_⟩
  rw [h1]
  simp only [get_user_groups, cacheGet, hstore, hexp]
  simp [userGroupsOf]

/-- Claim C9 (amended): a second `get_user_groups` call with the same
id set (in any order — the cache key is the sorted, comma-joined ids)
made while the entry is unexpired performs zero network calls and
returns the value stored by the first call, *provided* the first
call's result was non-empty; an empty result fails the `if cached:`
truthiness test and the network is queried again. -/
theorem get_user_groups_cache_hit (ids1 ids2 : List String)
    (resp1 : List ApiUser) (ttl t0 t1 : ℚ)
    (hperm : ids2.Perm ids1) (hne : resp1 ≠ [])
    (hunexp : t1 ≤ t0 + ttl) :
    ((get_user_groups t0 ids1 resp1 (Cache.empty ttl)).2.1 = 1) ∧
    ((get_user_groups t0 ids1 resp1 (Cache.empty ttl)).1 =
      userGroupsOf resp1) ∧
    ∀ resp2 : List ApiUser,
      get_user_groups t1 ids2 resp2
          (get_user_groups t0 ids1 resp1 (Cache.empty ttl)).2.2 =
        ((get_user_groups t0 ids1 resp1 (Cache.empty ttl)).1, 0,
          (get_user_groups t0 ids1 resp1 (Cache.empty ttl)).2.2) := by
  have h1 : get_user_groups t0 ids1 resp1 (Cache.empty ttl) =
      (userGroupsOf resp1, 1,
        cacheSet t0 (cacheKey ids1) (userGroupsOf resp1) none
          (Cache.empty ttl)) := by
    simp [get_user_groups, cacheGet, Cache.empty]
  have hkey : cacheKey ids2 = cacheKey ids1 := cacheKey_perm hperm
  have hgne : userGroupsOf resp1 ≠ [] := by
    simp only [userGroupsOf, ne_eq, List.map_eq_nil_iff]
    exact hne
  have hstore : (cacheSet t0 (cacheKey ids1) (userGroupsOf resp1) none
      (Cache.empty ttl)).store (cacheKey ids1)
        = some (userGroupsOf resp1, t0 + ttl) := by
    simp [cacheSet, effectiveTtl, Cache.empty]
  have hexp : is_expired t1 (t0 + ttl) = false := by
    simp only [is_expired, decide_eq_false_iff_not, not_lt]
    exact hunexp
  refine ⟨by rw [h1], by rw [h1], ?_⟩
  intro resp2
  rw [h1]
  simp only [get_user_groups, hkey, cacheGet, hstore, hexp]
  simp only [Bool.false_eq_true, if_false]
  rw [if_pos hgne]

/-- Witness for C9 (amended): ids `["U1", "U2"]` then `["U2", "U1"]`,
first response non-empty, second call 100 seconds later within TTL
3600: the second call is served from cache with zero network calls. -/
theorem get_user_groups_cache_hit_witness :
    ((["U2", "U1"] : List String).Perm ["U1", "U2"]) ∧
    (([⟨"U1", ["G1"]⟩] : List ApiUser) ≠ []) ∧
    ((100 : ℚ) ≤ 0 + 3600) ∧
    ((get_user_groups 0 ["U1", "U2"] [⟨"U1", ["G1"]⟩]
        (Cache.empty 3600)).2.1 = 1) ∧
    ((get_user_groups 0 ["U1", "U2"] [⟨"U1", ["G1"]⟩]
        (Cache.empty 3600)).1 = userGroupsOf [⟨"U1", ["G1"]⟩]) ∧
    (get_user_groups 100 ["U2", "U1"] []
        (get_user_groups 0 ["U1", "U2"] [⟨"U1", ["G1"]⟩]
          (Cache.empty 3600)).2.2 =
      ((get_user_groups 0 ["U1", "U2"] [⟨"U1", ["G1"]⟩]
          (Cache.empty 3600)).1, 0,
        (get_user_groups 0 ["U1", "U2"] [⟨"U1", ["G1"]⟩]
          (Cache.empty 3600)).2.2)) := by
  have hperm : (["U2", "U1"] : List String).Perm ["U1", "U2"] :=
    List.Perm.swap _ _ _
  have h := get_user_groups_cache_hit ["U1", "U2"] ["U2", "U1"]
    [⟨"U1", ["G1"]⟩] 3600 0 100 hperm (by simp) (by norm_num)
  exact ⟨hperm, by simp, by norm_num, h.1, h.2.1, h.2.2 []⟩

/-! ## Claim C3 -/

/-- Counterexample to claim C3 as stated: with `dry_run = false`, a 429
(rate-limit) response does not raise `RateLimitError` — the method
returns `False` — and a 401 response does not raise
`AuthenticationError` either.  (Those errors are raised by
`get_groups`, not by `update_issue_creator_group`.) -/
theorem update_issue_creator_group_429_cex :
    (update_issue_creator_group false (.status 429) = .ok false) ∧
    (update_issue_creator_group false (.status 429) ≠
      .error (.rateLimit "API rate limit exceeded")) ∧
    (update_issue_creator_group false (.status 401) = .ok false) ∧
    (update_issue_creator_group false (.status 401) ≠
      .error (.authentication "Authentication failed")) := by
  refine ⟨rfl, by simp [update_issue_creator_group], rfl,
    by simp [update_issue_creator_group]⟩

/-- Claim C3 (amended): `update_issue_creator_group` raises on no
response at all: it always returns a value — `True` iff `dry_run` is
set or the status is 200; 404, 403, 429, 401, every other status, and
a raised-and-caught network exception all yield `False`. -/
theorem update_issue_creator_group_never_raises :
    (∀ (d : Bool) (resp : HttpResult), ∃ b : Bool,
      update_issue_creator_group d resp = .ok b) ∧
    (∀ resp : HttpResult, update_issue_creator_group true resp = .ok true) ∧
    (update_issue_creator_group false (.status 200) = .ok true) ∧
    (∀ code : Nat, code ≠ 200 →
      update_issue_creator_group false (.status code) = .ok false) ∧
    (update_issue_creator_group false .exc = .ok false) := by
  refine ⟨?_, fun resp => rfl, rfl, ?_, rfl⟩
  · intro d resp
    cases d
    · cases resp with
      | status code =>
        by_cases hc : code = 200
        · exact ⟨true, by simp [update_issue_creator_group, hc]⟩
        · exact ⟨false, by simp [update_issue_creator_group, hc]⟩
      | exc => exact ⟨false, rfl⟩
    · exact ⟨true, rfl⟩
  · intro code hc
    simp [update_issue_creator_group, hc]

/-- Witness for C3 (amended): 429 is not 200, so the update reports
failure without raising; a dry run reports success. -/
theorem update_issue_creator_group_never_raises_witness :
    ((429 : Nat) ≠ 200) ∧
    (update_issue_creator_group false (.status 429) = .ok false) ∧
    (update_issue_creator_group true (.status 429) = .ok true) :=
  ⟨by decide,
    update_issue_creator_group_never_raises.2.2.2.1 429 (by decide),
    update_issue_creator_group_never_raises.2.1 (.status 429)⟩

/-! ## Claim C1 -/

/-- Counterexample to claim C1 as stated: a valid record whose creator
has no resolved group in the group map increments `failed_updates`
(total 1, succeeded 0, failed 1, skipped 0) — it is not counted as
skipped. -/
theorem issue_without_resolved_group_cex :
    (process_issues (fun _ => none) (fun _ _ => .ok)
      [⟨"1", "U1", "G1", some "grp"⟩] =
        ⟨1, 0, 1, 0⟩) ∧
    ¬ ((process_issues (fun _ => none) (fun _ _ => .ok)
          [⟨"1", "U1", "G1", some "grp"⟩]).skipped_updates = 1 ∧
       (process_issues (fun _ => none) (fun _ _ => .ok)
          [⟨"1", "U1", "G1", some "grp"⟩]).failed_updates = 0) := by
  constructor
  · rfl
  · intro h
    have := h.1
    simp [process_issues, process_single_issue, validate_issue] at this

theorem process_single_issue_skipped (gmap : String → Option String)
    (upd : Issue → String → UpdateOutcome) (s : ProcessingResult)
    (i : Issue) :
    (process_single_issue gmap upd s i).skipped_updates =
      s.skipped_updates := by
  rw [process_single_issue]
  split
  · rfl
  · split
    · rfl
    · split <;> rfl

/-- Claim C1 (amended): in `IssueProcessor`, a record that passes
validation but whose creator has no resolved group in the group map is
counted as *failed*, not skipped: it increments `failed_updates` (and
`total_processed`) and leaves `successful_updates` and
`skipped_updates` unchanged; and `skipped_updates` is never
incremented at all — it is 0 in the `ProcessingResult` of every run. -/
theorem issue_without_resolved_group_counts_failed
    (gmap : String → Option String)
    (upd : Issue → String → UpdateOutcome) :
    (∀ (s : ProcessingResult) (i : Issue),
      (validate_issue i).is_valid = true →
      i.creator_group.bind gmap = none →
      process_single_issue gmap upd s i =
        { s with total_processed := s.total_processed + 1,
                 failed_updates := s.failed_updates + 1 }) ∧
    (∀ issues : List Issue,
      (process_issues gmap upd issues).skipped_updates = 0) := by
  constructor
  · intro s i hv hg
    rw [process_single_issue]
    simp [hv, hg]
  · intro issues
    suffices h : ∀ (l : List Issue) (s : ProcessingResult),
        (l.foldl (process_single_issue gmap upd) s).skipped_updates =
          s.skipped_updates by
      exact h issues ⟨0, 0, 0, 0⟩
    intro l
    induction l with
    | nil => intro s; rfl
    | cons i l ih =>
      intro s
      rw [List.foldl_cons, ih, process_single_issue_skipped]

/-- Witness for C1 (amended): one valid record, empty group map: the
run ends with total 1, succeeded 0, failed 1, skipped 0. -/
theorem issue_without_resolved_group_counts_failed_witness :
    ((validate_issue ⟨"1", "U1", "G1", some "grp"⟩).is_valid = true) ∧
    ((Issue.creator_group ⟨"1", "U1", "G1", some "grp"⟩).bind
      (fun _ => (none : Option String)) = none) ∧
    (process_single_issue (fun _ => none) (fun _ _ => .ok) ⟨0, 0, 0, 0⟩
        ⟨"1", "U1", "G1", some "grp"⟩ =
      { (⟨0, 0, 0, 0⟩ : ProcessingResult) with
          total_processed := 0 + 1, failed_updates := 0 + 1 }) ∧
    ((process_issues (fun _ => none) (fun _ _ => .ok)
        [⟨"1", "U1", "G1", some "grp"⟩]).skipped_updates = 0) :=
  ⟨by decide, rfl,
    (issue_without_resolved_group_counts_failed (fun _ => none)
      (fun _ _ => .ok)).1 ⟨0, 0, 0, 0⟩ ⟨"1", "U1", "G1", some "grp"⟩
      (by decide) rfl,
    (issue_without_resolved_group_counts_failed (fun _ => none)
      (fun _ _ => .ok)).2 [⟨"1", "U1", "G1", some "grp"⟩]⟩

end DevRevBackfill
